import Mathlib

/-!
Verification of `iyes_loopless` (conditional systems, fixed-timestep stages,
state-transition stages) against its natural-language specification.

The Rust code is shallowly embedded: systems and stages become Lean functions
over explicit world states, Bevy `Duration`s become `Nat` (nanosecond counts,
the embedding is unit-agnostic), the `f32` overstep ratio of the rate-lock
check becomes an exact rational, and Rust panics (`assert!`) become
`Except String`.
-/

namespace Loopless

/-! ## Conditional systems (`src/condition.rs`)

A run-condition (`BoxedCondition`) is a system returning `bool`; it may carry
internal state (`Local` params) and, in the exclusive wrapper, has its command
buffers applied right after it runs.  Both effects are captured by modelling a
condition as a state transformer `W → Bool × W` on an abstract world `W`.
The main system is a transformer `W → W`.

To reason about *which* predicates get invoked, the embedded run functions
also return the list of (index, result) pairs of the conditions actually
evaluated, and whether the main system ran.
-/

/-- Result of running a conditional wrapper: the trace of condition
evaluations `(index, result)`, whether the main system was invoked, and the
final world. -/
structure RunTrace (W : Type) where
  evaluated : List (Nat × Bool)
  mainRan : Bool
  world : W

/-- Embedding of `ConditionalSystem::run_unsafe` (condition.rs lines 256-263):
iterate the conditions in order; the moment one returns `false`, return
without running the main system; otherwise run the main system.
`i` is the index of the first condition in `conds` (0 at the top call). -/
def ConditionalSystem.runFrom {W : Type} (sys : W → W) (i : Nat) :
    List (W → Bool × W) → W → RunTrace W
  | [], w => ⟨[], true, sys w⟩
  | c :: rest, w =>
    match c w with
    | (true, w') =>
      let r := ConditionalSystem.runFrom sys (i + 1) rest w'
      ⟨(i, true) :: r.evaluated, r.mainRan, r.world⟩
    | (false, w') =>
      ⟨[(i, false)], false, w'⟩

/-- Top-level entry of the parallel conditional wrapper. -/
def ConditionalSystem.run {W : Type} (conds : List (W → Bool × W)) (sys : W → W)
    (w : W) : RunTrace W :=
  ConditionalSystem.runFrom sys 0 conds w

/-- Embedding of `ConditionalExclusiveSystem::run` (condition.rs lines
181-198): for each condition, run it and then apply its command buffers
(`apply_buffers`, the second component of the pair); abort on `false`;
finally run the main exclusive system. -/
def ConditionalExclusiveSystem.runFrom {W : Type} (sys : W → W) (i : Nat) :
    List ((W → Bool × W) × (W → W)) → W → RunTrace W
  | [], w => ⟨[], true, sys w⟩
  | c :: rest, w =>
    match c.1 w with
    | (true, w1) =>
      let r := ConditionalExclusiveSystem.runFrom sys (i + 1) rest (c.2 w1)
      ⟨(i, true) :: r.evaluated, r.mainRan, r.world⟩
    | (false, w1) =>
      ⟨[(i, false)], false, c.2 w1⟩

/-- Top-level entry of the exclusive conditional wrapper. -/
def ConditionalExclusiveSystem.run {W : Type}
    (conds : List ((W → Bool × W) × (W → W))) (sys : W → W) (w : W) : RunTrace W :=
  ConditionalExclusiveSystem.runFrom sys 0 conds w

/-- The sequence of boolean results all predicates *would* produce if each
were evaluated once, in order, threading the world (the wrapper's actual
execution agrees with a prefix of this sequence, since it stops at the
first `false`). -/
def evalAll {W : Type} : List (W → Bool × W) → W → List Bool
  | [], _ => []
  | c :: rest, w =>
    match c w with
    | (b, w') => b :: evalAll rest w'

/-- Same, for the exclusive wrapper (condition run + buffer application). -/
def evalAllEx {W : Type} : List ((W → Bool × W) × (W → W)) → W → List Bool
  | [], _ => []
  | c :: rest, w =>
    match c.1 w with
    | (b, w1) => b :: evalAllEx rest (c.2 w1)

/-! ### `ConditionSet` (`src/condition.rs` lines 630-754)

A `ConditionalSystemDescriptor` is a main system plus the list of its own
conditions (added by `run_if`, which pushes at the back).  A `ConditionSet`
accumulates condition "applicators"; each applicator, when the set is
converted into a Bevy `SystemSet`, does `system.conditions.insert(0, cond)`.
We record the conditions carried by the applicators in the order the
applicators were added to the set. -/

/-- Descriptor: a main system `S` and its conditions `C` in evaluation order
(front is evaluated first). -/
structure CondDescriptor (S C : Type) where
  system : S
  conditions : List C

/-- The accumulated conditions of a `ConditionSet`, in the order they were
added by `ConditionSet::run_if` (condition.rs lines 742-754). -/
structure ConditionSet (C : Type) where
  conditions : List C

/-- One applicator call (condition.rs line 751): insert the condition at
index 0 of the descriptor's condition list. -/
def applyCondition {S C : Type} (d : CondDescriptor S C) (c : C) :
    CondDescriptor S C :=
  { d with conditions := c :: d.conditions }

/-- Embedding of `From<ConditionSystemSet> for SystemSet` (condition.rs lines
706-720): for each accumulated system, call every applicator in the order the
conditions were added to the set, and collect the resulting wrappers. -/
def conditionSystemSetToSystemSet {S C : Type} (cset : ConditionSet C)
    (systems : List (CondDescriptor S C)) : List (CondDescriptor S C) :=
  systems.map (fun s => cset.conditions.foldl applyCondition s)

/-! ### Access aggregation (`src/condition.rs` lines 216-288)

`ConditionalSystem` holds aggregate `component_access` and
`archetype_component_access` sets (modelled as `Finset Nat`).  Each part
(the main system and each condition) is a sub-system: `initialize(world)`
computes its component access, and `update_archetype_component_access(world)`
revises its archetype access from the world's archetypes. -/

/-- A sub-system of a conditional wrapper (the main system or a condition),
as seen by the access-aggregation code: its current access sets, what its
`initialize` computes, and how its `update_archetype_component_access`
revises the archetype set. -/
structure CondSub (W : Type) where
  compAccess : Finset Nat
  archAccess : Finset Nat
  compInit : W → Finset Nat
  archUpdate : W → Finset Nat → Finset Nat

/-- `System::initialize` of a sub-system: computes its component access. -/
def CondSub.init {W : Type} (s : CondSub W) (w : W) : CondSub W :=
  { s with compAccess := s.compInit w }

/-- `System::update_archetype_component_access` of a sub-system. -/
def CondSub.update {W : Type} (s : CondSub W) (w : W) : CondSub W :=
  { s with archAccess := s.archUpdate w s.archAccess }

/-- The `ConditionalSystem` wrapper state relevant to access aggregation. -/
structure CondAccessSystem (W : Type) where
  system : CondSub W
  conditions : List (CondSub W)
  component_access : Finset Nat
  archetype_component_access : Finset Nat

/-- Embedding of `ConditionalSystem::initialize` (condition.rs lines
272-280): initialize every condition and extend (union into) the aggregate
component access with each one's access, then do the same with the main
system.  (The source interleaves the per-condition initialize and extend in
one loop; the map plus fold below computes the same result.) -/
def CondAccessSystem.init {W : Type} (cs : CondAccessSystem W) (w : W) :
    CondAccessSystem W :=
  let conds := cs.conditions.map (fun c => c.init w)
  let acc := conds.foldl (fun a c => a ∪ c.compAccess) cs.component_access
  let sys := cs.system.init w
  { cs with
      conditions := conds
      system := sys
      component_access := acc ∪ sys.compAccess }

/-- Embedding of `ConditionalSystem::update_archetype_component_access`
(condition.rs lines 232-241): update every condition and extend the aggregate
archetype access with each one's access, then the same for the main system. -/
def CondAccessSystem.update {W : Type} (cs : CondAccessSystem W) (w : W) :
    CondAccessSystem W :=
  let conds := cs.conditions.map (fun c => c.update w)
  let acc := conds.foldl (fun a c => a ∪ c.archAccess) cs.archetype_component_access
  let sys := cs.system.update w
  { cs with
      conditions := conds
      system := sys
      archetype_component_access := acc ∪ sys.archAccess }

/-- Any number of `update_archetype_component_access` calls, with the world
(archetype collection) possibly different each time. -/
def CondAccessSystem.updates {W : Type} (cs : CondAccessSystem W) :
    List W → CondAccessSystem W
  | [] => cs
  | w :: ws => (cs.update w).updates ws

/-- The aggregate access sets cover (are supersets of) the union of the
corresponding sets of the main system and every condition. -/
def CondAccessSystem.covers {W : Type} (cs : CondAccessSystem W) : Prop :=
  (cs.system.compAccess ⊆ cs.component_access ∧
    ∀ c ∈ cs.conditions, c.compAccess ⊆ cs.component_access) ∧
  (cs.system.archAccess ⊆ cs.archetype_component_access ∧
    ∀ c ∈ cs.conditions, c.archAccess ⊆ cs.archetype_component_access)

/-! ## Fixed timestep stages (`src/fixedtimestep.rs`)

`Duration` is a nanosecond count (the embedding is unit-agnostic).  The
`FixedTimesteps` registry resource is modelled restricted to the single
label of the stage under study: `info` is the map entry for that label (or
`none` when absent), `current` is the registry's `current` field.  The world
holds the registry resource and the `Time` resource's delta, both optional.
Child sub-stages are arbitrary world transformers. -/

structure FixedTimestepInfo where
  step : Nat
  accumulator : Nat
  paused : Bool
deriving DecidableEq

structure FixedTimesteps where
  info : Option FixedTimestepInfo
  current : Option String
deriving DecidableEq

structure FTWorld where
  timesteps : Option FixedTimesteps
  timeDelta : Option Nat
deriving DecidableEq

/-- The `FixedTimestepStage` struct (fixedtimestep.rs lines 174-182).
`rate_lock` is `(n_frames, exit_deviation)`; the `f32` deviation is
modelled as an exact rational. -/
structure FixedTimestepStage where
  step : Nat
  accumulator : Nat
  paused : Bool
  label : String
  stages : List (FTWorld → FTWorld)
  rate_lock : Nat × ℚ
  lock_accum : Nat

/-- `true` iff the `Except` value is `ok` (i.e. the Rust call did not
panic). -/
def exceptOk {α : Type} : Except String α → Bool
  | Except.ok _ => true
  | Except.error _ => false

/-- Embedding of `FixedTimestepStage::new` (fixedtimestep.rs lines 191-201).
The constructor performs no validation, so it never reaches a panic: the
returned value is always `ok`.  `u32::MAX` is `4294967295`. -/
def FixedTimestepStage.new (timestep : Nat) (label : String) :
    Except String FixedTimestepStage :=
  Except.ok
    { step := timestep
      accumulator := 0
      paused := false
      label := label
      stages := []
      rate_lock := (4294967295, 0)
      lock_accum := 0 }

/-- Embedding of `FixedTimestepStage::set_rate_lock` (fixedtimestep.rs lines
240-244): `assert!(exit_deviation > 0.0)`, then `assert!(n_frames > 0)`
(a failed `assert!` is a panic, modelled as `Except.error`). -/
def FixedTimestepStage.set_rate_lock (s : FixedTimestepStage) (n_frames : Nat)
    (exit_deviation : ℚ) : Except String FixedTimestepStage :=
  if ¬ (0 < exit_deviation) then
    Except.error "assertion failed: exit_deviation is not positive"
  else if ¬ (0 < n_frames) then
    Except.error "assertion failed: n_frames is not positive"
  else
    Except.ok { s with rate_lock := (n_frames, exit_deviation) }

/-- Embedding of `FixedTimestepStage::store_fixedtimestepinfo`
(fixedtimestep.rs lines 253-277): set `current` to this stage's label and
write `(step, accumulator, paused)` into the registry entry; all four source
branches (resource present or not, entry present or not) collapse to this in
the single-label model. -/
def FixedTimestepStage.storeInfo (s : FixedTimestepStage) (w : FTWorld) :
    FTWorld :=
  { w with
      timesteps := some ⟨some ⟨s.step, s.accumulator, s.paused⟩, some s.label⟩ }

/-- Embedding of the sync at the top of `FixedTimestepStage::run`
(fixedtimestep.rs lines 282-288): re-read `step` and `paused` (but not the
accumulator) from the registry entry, if present. -/
def FixedTimestepStage.syncFromRegistry (s : FixedTimestepStage)
    (w : FTWorld) : FixedTimestepStage :=
  match w.timesteps with
  | some ts =>
    match ts.info with
    | some info => { s with step := info.step, paused := info.paused }
    | none => s
  | none => s

/-- Embedding of the rate-lock check (fixedtimestep.rs lines 303-310): when
in locked mode (`lock_accum >= rate_lock.0`), compare the overstep ratio
`accumulator / step` against `1.5`; on deviation of at least
`exit_deviation`, zero `lock_accum`; otherwise force the accumulator to
`step + step / 2`. -/
def FixedTimestepStage.rateLockCheck (s : FixedTimestepStage) :
    FixedTimestepStage :=
  if s.rate_lock.1 ≤ s.lock_accum then
    if s.rate_lock.2 ≤ |(s.accumulator : ℚ) / (s.step : ℚ) - 3 / 2| then
      { s with lock_accum := 0 }
    else
      { s with accumulator := s.step + s.step / 2 }
  else s

/-- One pass over the child sub-stages (fixedtimestep.rs lines 319-333): run
each child, then copy `step`, `accumulator`, `paused` back from the registry
entry in case the child modified them. -/
def subStagePass :
    List (FTWorld → FTWorld) → FixedTimestepStage → FTWorld →
      FixedTimestepStage × FTWorld
  | [], s, w => (s, w)
  | stage :: rest, s, w =>
    let w' := stage w
    let s' :=
      match w'.timesteps with
      | some ts =>
        match ts.info with
        | some info =>
          { s with
              step := info.step
              accumulator := info.accumulator
              paused := info.paused }
        | none => s
      | none => s
    subStagePass rest s' w'

/-- The catch-up loop (fixedtimestep.rs lines 314-335): while the
accumulator holds at least one step, subtract the step, publish the info to
the registry, run the children (with copy-back), and count the pass.
`fuel` bounds the number of iterations (the Rust loop does not terminate
when, e.g., `step = 0`); `none` means the fuel ran out before the loop
exited. -/
def FixedTimestepStage.catchUp :
    Nat → FixedTimestepStage → FTWorld → Nat →
      Option (FixedTimestepStage × FTWorld × Nat)
  | fuel + 1, s, w, n =>
    if s.step ≤ s.accumulator then
      let s1 := { s with accumulator := s.accumulator - s.step }
      let w1 := s1.storeInfo w
      let sw := subStagePass s1.stages s1 w1
      FixedTimestepStage.catchUp fuel sw.1 sw.2 (n + 1)
    else
      some (s, w, n)
  | 0, s, w, n =>
    if s.step ≤ s.accumulator then none else some (s, w, n)

/-- Embedding of `FixedTimestepStage::run` (fixedtimestep.rs lines 281-355).
Returns the final stage state, the final world, and the number of steps
executed (`n_steps`); `none` when the fuel bound was hit. -/
def FixedTimestepStage.run (fuel : Nat) (s₀ : FixedTimestepStage)
    (w : FTWorld) : Option (FixedTimestepStage × FTWorld × Nat) :=
  let s := s₀.syncFromRegistry w
  if s.paused then some (s, w, 0)
  else
    match w.timeDelta with
    | none => some (s, w, 0)
    | some delta =>
      let s := { s with accumulator := s.accumulator + delta }
      let s := s.rateLockCheck
      match FixedTimestepStage.catchUp fuel s w 0 with
      | none => none
      | some (s, w, n) =>
        let w :=
          match w.timesteps with
          | some ts => { w with timesteps := some { ts with current := none } }
          | none => w
        let w := if n = 0 then s.storeInfo w else w
        let s :=
          if n = 1 then
            let s :=
              if s.lock_accum < s.rate_lock.1 then
                { s with lock_accum := s.lock_accum + 1 }
              else s
            if s.rate_lock.1 ≤ s.lock_accum then
              { s with accumulator := s.step / 2 }
            else s
          else { s with lock_accum := 0 }
        some (s, w, n)

/-- A sequence of ticks: before each tick the `Time` resource reports the
next delta; the per-tick fuel `accumulator + d + 1` always suffices when
`step > 0`.  Returns the final stage, world, and total number of child
passes. -/
def FixedTimestepStage.runTicks (s : FixedTimestepStage) (w : FTWorld) :
    List Nat → Option (FixedTimestepStage × FTWorld × Nat)
  | [] => some (s, w, 0)
  | d :: ds =>
    match FixedTimestepStage.run (s.accumulator + d + 1) s
        { w with timeDelta := some d } with
    | none => none
    | some (s', w', n) =>
      match FixedTimestepStage.runTicks s' w' ds with
      | none => none
      | some (s'', w'', m) => some (s'', w'', n + m)

/-- The registry entry (when present) agrees with the stage's own fields. -/
def FixedTimestepStage.registryAgrees (s : FixedTimestepStage)
    (w : FTWorld) : Prop :=
  match w.timesteps with
  | none => True
  | some ts => ts.info = some ⟨s.step, s.accumulator, s.paused⟩

/-- A child sub-stage that does not mutate the registry resource. -/
def preservesRegistry (f : FTWorld → FTWorld) : Prop :=
  ∀ w, (f w).timesteps = w.timesteps

/-! ## State transition stages (`src/state.rs`)

`CurrentState<T>` and `NextState<T>` are modelled as the two optional fields
of `StWorld T` (absent resource = `none`).  Enter/exit sub-stages are world
transformers.  The driver emits an event after each completed action (an
exit sub-stage run, a `CurrentState` write, an enter sub-stage run) into a
log that user sub-stages cannot touch, so the log records the order of the
driver's effects. -/

/-- An observable driver event: a completed enter sub-stage run, exit
sub-stage run, or `CurrentState` write. -/
inductive StEv (T : Type) where
  | enter (t : T)
  | exit (t : T)
  | setCurrent (t : T)
deriving DecidableEq

/-- The world as seen by the state driver: the `CurrentState<T>` and
`NextState<T>` resources (absent = `none`). -/
structure StWorld (T : Type) where
  current : Option T
  next : Option T
deriving DecidableEq

/-- The `StateTransitionStage` struct (state.rs lines 67-74): the enter and
exit sub-stage maps and the configured initial value (`default`). -/
structure StateTransitionStage (T : Type) where
  enter_stages : T → Option (StWorld T → StWorld T)
  exit_stages : T → Option (StWorld T → StWorld T)
  default : T

/-- The current-state read at the top of the driver loop (state.rs lines
221-233): if `CurrentState<T>` is present, read it; otherwise run the
first-run protocol: insert the configured initial value, run its enter
sub-stage if registered (logging the event), and re-read
(`get_resource_or_insert_with`), re-inserting the initial value again if
the enter sub-stage removed it. -/
def readCurrentOrInit {T : Type} (st : StateTransitionStage T)
    (w : StWorld T) (log : List (StEv T)) : T × StWorld T × List (StEv T) :=
  match w.current with
  | some c => (c, w, log)
  | none =>
    let w1 : StWorld T := { w with current := some st.default }
    let wl : StWorld T × List (StEv T) :=
      match st.enter_stages st.default with
      | some stg => (stg w1, log ++ [StEv.enter st.default])
      | none => (w1, log)
    match wl.1.current with
    | some c => (c, wl.1, wl.2)
    | none => (st.default, { wl.1 with current := some st.default }, wl.2)

/-- Embedding of `StateTransitionStage::run` (state.rs lines 218-252): loop:
read (or initialize) the current state, `remove_resource::<NextState>`; if a
next value was pending, run the exit sub-stage of the current value, insert
`CurrentState(next)`, run the enter sub-stage of the next value, and repeat;
otherwise stop.  `fuel` bounds the number of iterations (user sub-stages
that always re-insert `NextState` make the Rust loop spin forever); `none`
means the fuel ran out. -/
def StateTransitionStage.runStage {T : Type} (st : StateTransitionStage T) :
    Nat → StWorld T → List (StEv T) → Option (StWorld T × List (StEv T))
  | 0, _, _ => none
  | fuel + 1, w, log =>
    match readCurrentOrInit st w log with
    | (current, w, log) =>
      let next := w.next
      let w := { w with next := none }
      match next with
      | some n =>
        let wl : StWorld T × List (StEv T) :=
          match st.exit_stages current with
          | some stg => (stg w, log ++ [StEv.exit current])
          | none => (w, log)
        let w := { wl.1 with current := some n }
        let log := wl.2 ++ [StEv.setCurrent n]
        let wl2 : StWorld T × List (StEv T) :=
          match st.enter_stages n with
          | some stg => (stg w, log ++ [StEv.enter n])
          | none => (w, log)
        StateTransitionStage.runStage st fuel wl2.1 wl2.2
      | none => some (w, log)

/-- Run the registered exit sub-stage for `t`, if any. -/
def applyExit {T : Type} (st : StateTransitionStage T) (t : T)
    (w : StWorld T) : StWorld T :=
  match st.exit_stages t with
  | some stg => stg w
  | none => w

/-- Run the registered enter sub-stage for `t`, if any. -/
def applyEnter {T : Type} (st : StateTransitionStage T) (t : T)
    (w : StWorld T) : StWorld T :=
  match st.enter_stages t with
  | some stg => stg w
  | none => w

/-- The events of one completed transition `a → b`, in order: exit of `a`
(when registered), the `CurrentState` write, enter of `b` (when
registered). -/
def transitionBlock {T : Type} (st : StateTransitionStage T) (a b : T) :
    List (StEv T) :=
  (match st.exit_stages a with
    | some _ => [StEv.exit a]
    | none => []) ++
  [StEv.setCurrent b] ++
  (match st.enter_stages b with
    | some _ => [StEv.enter b]
    | none => [])

/-- The events of the first-run initialization: enter of the initial value,
when registered. -/
def initBlock {T : Type} (st : StateTransitionStage T) : List (StEv T) :=
  match st.enter_stages st.default with
  | some _ => [StEv.enter st.default]
  | none => []

/-- Number of `CurrentState` writes (= transitions performed) in a log. -/
def countSetCurrent {T : Type} (log : List (StEv T)) : Nat :=
  (log.filter fun e =>
    match e with
    | StEv.setCurrent _ => true
    | _ => false).length

/-- Every registered enter/exit sub-stage leaves an absent `NextState`
absent (i.e. the sub-stages never write `NextState`). -/
def NextPreserving {T : Type} (st : StateTransitionStage T) : Prop :=
  (∀ t f, st.enter_stages t = some f →
    ∀ w : StWorld T, w.next = none → (f w).next = none) ∧
  (∀ t f, st.exit_stages t = some f →
    ∀ w : StWorld T, w.next = none → (f w).next = none)

lemma ConditionalSystem.runFrom_stops {W : Type} (sys : W → W) :
    ∀ (conds : List (W → Bool × W)) (i k : Nat) (w : W),
      (evalAll conds w).take k = List.replicate k true →
      (evalAll conds w).get? k = some false →
      (ConditionalSystem.runFrom sys i conds w).evaluated.map Prod.fst
          = List.range' i (k + 1) ∧
        (ConditionalSystem.runFrom sys i conds w).mainRan = false := by
  intro conds
  induction conds with
  | nil =>
    intro i k w _ hk
    simp [evalAll] at hk
  | cons c rest ih =>
    intro i k w htake hk
    rcases hcw : c w with ⟨b, w'⟩
    cases k with
    | zero =>
      have hb : b = false := by simpa [evalAll, hcw] using hk
      subst hb
      simp [ConditionalSystem.runFrom, hcw, List.range']
    | succ k =>
      have hb : b = true := by
        have h0 := congrArg (fun l => l.get? 0) htake
        simpa [evalAll, hcw] using h0
      subst hb
      have htake' : (evalAll rest w').take k = List.replicate k true := by
        have ht := congrArg List.tail htake
        simpa [evalAll, hcw] using ht
      have hk' : (evalAll rest w').get? k = some false := by
        simpa [evalAll, hcw] using hk
      have hih := ih (i + 1) k w' htake' hk'
      refine ⟨?_, ?_⟩
      · simp [ConditionalSystem.runFrom, hcw, hih.1, List.range'_succ]
      · simp [ConditionalSystem.runFrom, hcw, hih.2]

lemma ConditionalSystem.runFrom_all_true {W : Type} (sys : W → W) :
    ∀ (conds : List (W → Bool × W)) (i : Nat) (w : W),
      (∀ b ∈ evalAll conds w, b = true) →
      (ConditionalSystem.runFrom sys i conds w).mainRan = true ∧
        (ConditionalSystem.runFrom sys i conds w).evaluated.map Prod.fst
          = List.range' i conds.length := by
  intro conds
  induction conds with
  | nil =>
    intro i w _
    simp [ConditionalSystem.runFrom, List.range']
  | cons c rest ih =>
    intro i w hall
    rcases hcw : c w with ⟨b, w'⟩
    have hb : b = true := by
      apply hall
      simp [evalAll, hcw]
    subst hb
    have hall' : ∀ b ∈ evalAll rest w', b = true := by
      intro b hb
      apply hall
      simp [evalAll, hcw, hb]
    have hih := ih (i + 1) w' hall'
    refine ⟨?_, ?_⟩
    · simp [ConditionalSystem.runFrom, hcw, hih.1]
    · simp [ConditionalSystem.runFrom, hcw, hih.2, List.range'_succ]

lemma ConditionalExclusiveSystem.exRunFrom_stops {W : Type} (sys : W → W) :
    ∀ (conds : List ((W → Bool × W) × (W → W))) (i k : Nat) (w : W),
      (evalAllEx conds w).take k = List.replicate k true →
      (evalAllEx conds w).get? k = some false →
      (ConditionalExclusiveSystem.runFrom sys i conds w).evaluated.map Prod.fst
          = List.range' i (k + 1) ∧
        (ConditionalExclusiveSystem.runFrom sys i conds w).mainRan = false := by
  intro conds
  induction conds with
  | nil =>
    intro i k w _ hk
    simp [evalAllEx] at hk
  | cons c rest ih =>
    intro i k w htake hk
    rcases hcw : c.1 w with ⟨b, w1⟩
    cases k with
    | zero =>
      have hb : b = false := by simpa [evalAllEx, hcw] using hk
      subst hb
      simp [ConditionalExclusiveSystem.runFrom, hcw, List.range']
    | succ k =>
      have hb : b = true := by
        have h0 := congrArg (fun l => l.get? 0) htake
        simpa [evalAllEx, hcw] using h0
      subst hb
      have htake' : (evalAllEx rest (c.2 w1)).take k = List.replicate k true := by
        have ht := congrArg List.tail htake
        simpa [evalAllEx, hcw] using ht
      have hk' : (evalAllEx rest (c.2 w1)).get? k = some false := by
        simpa [evalAllEx, hcw] using hk
      have hih := ih (i + 1) k (c.2 w1) htake' hk'
      refine ⟨?_, ?_⟩
      · simp [ConditionalExclusiveSystem.runFrom, hcw, hih.1, List.range'_succ]
      · simp [ConditionalExclusiveSystem.runFrom, hcw, hih.2]

lemma ConditionalExclusiveSystem.exRunFrom_all_true {W : Type} (sys : W → W) :
    ∀ (conds : List ((W → Bool × W) × (W → W))) (i : Nat) (w : W),
      (∀ b ∈ evalAllEx conds w, b = true) →
      (ConditionalExclusiveSystem.runFrom sys i conds w).mainRan = true := by
  intro conds
  induction conds with
  | nil =>
    intro i w _
    simp [ConditionalExclusiveSystem.runFrom]
  | cons c rest ih =>
    intro i w hall
    rcases hcw : c.1 w with ⟨b, w1⟩
    have hb : b = true := by
      apply hall
      simp [evalAllEx, hcw]
    subst hb
    have hall' : ∀ b ∈ evalAllEx rest (c.2 w1), b = true := by
      intro b hb
      apply hall
      simp [evalAllEx, hcw, hb]
    have hih := ih (i + 1) (c.2 w1) hall'
    simp [ConditionalExclusiveSystem.runFrom, hcw, hih]

/-- C1: for either conditional wrapper (parallel or exclusive) with main
system S and predicates `[P0..Pn]` in insertion order, in any run where `Pk`
is the first predicate to return false, the wrapper evaluates exactly
`P0..Pk` (their indices, in order), does not evaluate `Pk+1..Pn`, and does
not run S; if every predicate returns true, S runs. -/
theorem c1 {W : Type} (conds : List (W → Bool × W))
    (econds : List ((W → Bool × W) × (W → W))) (sys esys : W → W) (w : W) (k : Nat) :
    ((evalAll conds w).take k = List.replicate k true →
      (evalAll conds w).get? k = some false →
      (ConditionalSystem.run conds sys w).evaluated.map Prod.fst = List.range (k + 1) ∧
        (ConditionalSystem.run conds sys w).mainRan = false) ∧
    ((∀ b ∈ evalAll conds w, b = true) →
      (ConditionalSystem.run conds sys w).mainRan = true) ∧
    ((evalAllEx econds w).take k = List.replicate k true →
      (evalAllEx econds w).get? k = some false →
      (ConditionalExclusiveSystem.run econds esys w).evaluated.map Prod.fst
          = List.range (k + 1) ∧
        (ConditionalExclusiveSystem.run econds esys w).mainRan = false) ∧
    ((∀ b ∈ evalAllEx econds w, b = true) →
      (ConditionalExclusiveSystem.run econds esys w).mainRan = true) := by
  refine ⟨?_, ?_, ?_, ?_⟩
  · intro htake hk
    have h := ConditionalSystem.runFrom_stops sys conds 0 k w htake hk
    rw [List.range_eq_range']
    exact ⟨h.1, h.2⟩
  · intro hall
    exact (ConditionalSystem.runFrom_all_true sys conds 0 w hall).1
  · intro htake hk
    have h := ConditionalExclusiveSystem.exRunFrom_stops esys econds 0 k w htake hk
    rw [List.range_eq_range']
    exact ⟨h.1, h.2⟩
  · intro hall
    exact ConditionalExclusiveSystem.exRunFrom_all_true esys econds 0 w hall

/-- Witness for C1 at a concrete input: three predicates where the second is
the first to return false (parallel wrapper), and an exclusive wrapper whose
single predicate returns true. -/
theorem c1_witness :
    ((ConditionalSystem.run
        [fun w => (true, w + 1), fun w => (false, w), fun w => (true, w)]
        (fun w => w * 10) (0 : Nat)).evaluated.map Prod.fst = List.range 2 ∧
      (ConditionalSystem.run
        [fun w => (true, w + 1), fun w => (false, w), fun w => (true, w)]
        (fun w => w * 10) (0 : Nat)).mainRan = false) ∧
    (ConditionalExclusiveSystem.run
        [(fun w => (true, w), fun w => w + 5)]
        (fun w => w * 10) (0 : Nat)).mainRan = true := by
  have h := c1 (W := Nat)
    [fun w => (true, w + 1), fun w => (false, w), fun w => (true, w)]
    [(fun w => (true, w), fun w => w + 5)]
    (fun w => w * 10) (fun w => w * 10) 0 1
  exact ⟨h.1 (by simp [evalAll]) (by simp [evalAll]),
    h.2.2.2 (by simp [evalAllEx])⟩

lemma foldl_applyCondition {S C : Type} (l : List C) :
    ∀ s : CondDescriptor S C,
      l.foldl applyCondition s = ⟨s.system, l.reverse ++ s.conditions⟩ := by
  induction l with
  | nil => intro s; simp
  | cons c l ih =>
    intro s
    simp [List.foldl_cons, ih, applyCondition]

/-- C9: converting a `ConditionSet` with accumulated predicates and systems
into a scheduler system set applies every accumulated predicate to every
accumulated system; each applicator inserts at the front, so the predicates
end up, inside every wrapper, in the reverse of the order they were added to
the set (followed by the wrapper's own pre-existing conditions), and every
system is kept. -/
theorem c9 {S C : Type} (cset : ConditionSet C)
    (systems : List (CondDescriptor S C)) :
    conditionSystemSetToSystemSet cset systems
      = systems.map
          (fun d => ⟨d.system, cset.conditions.reverse ++ d.conditions⟩) := by
  unfold conditionSystemSetToSystemSet
  refine List.map_congr_left ?_
  intro d _
  exact foldl_applyCondition cset.conditions d

lemma foldl_union_subset_init {C : Type} (f : C → Finset Nat) (l : List C) :
    ∀ a₀ : Finset Nat, a₀ ⊆ l.foldl (fun a c => a ∪ f c) a₀ := by
  induction l with
  | nil => intro a₀; simp
  | cons c l ih =>
    intro a₀
    exact subset_trans Finset.subset_union_left (ih (a₀ ∪ f c))

lemma mem_foldl_union {C : Type} (f : C → Finset Nat) (l : List C) (c : C)
    (hc : c ∈ l) :
    ∀ a₀ : Finset Nat, f c ⊆ l.foldl (fun a c => a ∪ f c) a₀ := by
  induction l with
  | nil => cases hc
  | cons d l ih =>
    intro a₀
    rcases List.mem_cons.mp hc with h | h
    · subst h
      exact subset_trans Finset.subset_union_right
        (foldl_union_subset_init f l (a₀ ∪ f c))
    · exact ih h (a₀ ∪ f d)

lemma CondAccessSystem.init_compCovers {W : Type}
    (cs : CondAccessSystem W) (w : W) :
    (cs.init w).system.compAccess ⊆ (cs.init w).component_access ∧
      ∀ c ∈ (cs.init w).conditions,
        c.compAccess ⊆ (cs.init w).component_access := by
  constructor
  · exact Finset.subset_union_right
  · intro c hc
    simp only [CondAccessSystem.init] at hc ⊢
    exact subset_trans
      (mem_foldl_union CondSub.compAccess _ c hc cs.component_access)
      Finset.subset_union_left

lemma CondAccessSystem.update_archCovers {W : Type}
    (cs : CondAccessSystem W) (w : W) :
    (cs.update w).system.archAccess ⊆ (cs.update w).archetype_component_access ∧
      ∀ c ∈ (cs.update w).conditions,
        c.archAccess ⊆ (cs.update w).archetype_component_access := by
  constructor
  · exact Finset.subset_union_right
  · intro c hc
    simp only [CondAccessSystem.update] at hc ⊢
    exact subset_trans
      (mem_foldl_union CondSub.archAccess _ c hc cs.archetype_component_access)
      Finset.subset_union_left

lemma CondAccessSystem.updates_covers {W : Type} :
    ∀ (ws : List W) (cs : CondAccessSystem W), cs.covers → (cs.updates ws).covers := by
  intro ws
  induction ws with
  | nil => intro cs h; exact h
  | cons w ws ih =>
    intro cs h
    apply ih
    refine ⟨?_, ?_⟩
    · -- component access untouched by an update
      simpa [CondAccessSystem.update, CondSub.update] using h.1
    · exact CondAccessSystem.update_archCovers cs w

/-- C4: after `initialize(world)` and any number of
`update_archetype_component_access` calls (on fresh sub-systems whose
archetype sets start empty, as produced by `into_descriptor`), the wrapper's
aggregate component and archetype-component access sets are supersets of the
union of the corresponding sets of the main system and all predicate
systems; moreover each `initialize` / `update` call only extends the
aggregate sets, never removing anything. -/
theorem c4 {W : Type} (cs : CondAccessSystem W) (w : W) (ws : List W)
    (hsys : cs.system.archAccess = ∅)
    (hconds : ∀ c ∈ cs.conditions, c.archAccess = ∅) :
    ((cs.init w).updates ws).covers ∧
    (∀ (cs' : CondAccessSystem W) (w' : W),
      cs'.component_access ⊆ (cs'.init w').component_access ∧
      (cs'.init w').archetype_component_access
          = cs'.archetype_component_access ∧
      cs'.archetype_component_access ⊆ (cs'.update w').archetype_component_access ∧
      (cs'.update w').component_access = cs'.component_access) := by
  constructor
  · apply CondAccessSystem.updates_covers
    refine ⟨CondAccessSystem.init_compCovers cs w, ?_, ?_⟩
    · -- fresh main system: empty archetype set is below anything
      simp [CondAccessSystem.init, CondSub.init, hsys]
    · intro c hc
      simp only [CondAccessSystem.init, List.mem_map] at hc
      rcases hc with ⟨c₀, hc₀, rfl⟩
      simp [CondSub.init, hconds c₀ hc₀]
  · intro cs' w'
    refine ⟨?_, rfl, ?_, rfl⟩
    · exact subset_trans
        (foldl_union_subset_init CondSub.compAccess _ cs'.component_access)
        Finset.subset_union_left
    · exact subset_trans
        (foldl_union_subset_init CondSub.archAccess _ cs'.archetype_component_access)
        Finset.subset_union_left

/-- Witness for C4 at a concrete input: a wrapper with one condition and
fresh (empty) archetype sets, initialized and updated twice. -/
theorem c4_witness :
    (((⟨⟨{9}, ∅, fun _ => {1, 2}, fun _ a => a ∪ {3}⟩,
        [⟨{8}, ∅, fun _ => {4}, fun _ a => a ∪ {5}⟩], ∅, ∅⟩ :
        CondAccessSystem Unit).init ()).updates [(), ()]).covers := by
  exact (c4 (⟨⟨{9}, ∅, fun _ => {1, 2}, fun _ a => a ∪ {3}⟩,
    [⟨{8}, ∅, fun _ => {4}, fun _ a => a ∪ {5}⟩], ∅, ∅⟩ : CondAccessSystem Unit)
    () [(), ()] rfl
    (by intro c hc; rw [List.mem_singleton] at hc; subst hc; rfl)).1

lemma syncFromRegistry_of_agrees (s : FixedTimestepStage) (w : FTWorld)
    (h : s.registryAgrees w) : s.syncFromRegistry w = s := by
  unfold FixedTimestepStage.registryAgrees at h
  unfold FixedTimestepStage.syncFromRegistry
  rcases hw : w.timesteps with _ | ts
  · rfl
  · simp only [hw] at h
    simp only [hw, h]

lemma subStagePass_preserving (cur : Option String) :
    ∀ (l : List (FTWorld → FTWorld)) (s : FixedTimestepStage) (w : FTWorld),
      (∀ f ∈ l, preservesRegistry f) →
      w.timesteps = some ⟨some ⟨s.step, s.accumulator, s.paused⟩, cur⟩ →
      (subStagePass l s w).1 = s ∧
        (subStagePass l s w).2.timesteps = w.timesteps := by
  intro l
  induction l with
  | nil =>
    intro s w _ _
    exact ⟨rfl, rfl⟩
  | cons f l ih =>
    intro s w hpres hw
    have hf : preservesRegistry f := hpres f (List.mem_cons_self f l)
    have hw' : (f w).timesteps
        = some ⟨some ⟨s.step, s.accumulator, s.paused⟩, cur⟩ := by
      rw [hf w]; exact hw
    have hrec := ih s (f w)
      (fun g hg => hpres g (List.mem_cons_of_mem f hg)) hw'
    have hunfold : subStagePass (f :: l) s w = subStagePass l s (f w) := by
      simp only [subStagePass, hw']
    rw [hunfold]
    exact ⟨hrec.1, hrec.2.trans (hf w)⟩

lemma rateLockCheck_skip (s : FixedTimestepStage)
    (h : s.lock_accum < s.rate_lock.1) : s.rateLockCheck = s := by
  unfold FixedTimestepStage.rateLockCheck
  rw [if_neg (by omega)]

lemma catchUp_spec :
    ∀ (fuel : Nat) (s : FixedTimestepStage) (w : FTWorld) (n : Nat),
      0 < s.step →
      s.accumulator ≤ fuel →
      (∀ f ∈ s.stages, preservesRegistry f) →
      ∃ w',
        FixedTimestepStage.catchUp fuel s w n
          = some ({ s with accumulator := s.accumulator % s.step }, w',
              n + s.accumulator / s.step) ∧
        (s.accumulator < s.step → w' = w) ∧
        (s.step ≤ s.accumulator →
          w'.timesteps
            = some ⟨some ⟨s.step, s.accumulator % s.step, s.paused⟩,
                some s.label⟩) := by
  intro fuel
  induction fuel with
  | zero =>
    intro s w n hstep hfuel _
    obtain ⟨st, acc, p, lb, stg, rl, la⟩ := s
    dsimp only at hstep hfuel ⊢
    have hacc : acc = 0 := Nat.le_zero.mp hfuel
    subst hacc
    have hnle : ¬ st ≤ 0 := by omega
    refine ⟨w, ?_, fun _ => rfl, fun hge => absurd hge hnle⟩
    simp only [FixedTimestepStage.catchUp]
    rw [if_neg hnle]
    simp
  | succ fuel ih =>
    intro s w n hstep hfuel hpres
    obtain ⟨st, acc, p, lb, stg, rl, la⟩ := s
    dsimp only at hstep hfuel hpres ⊢
    by_cases hge : st ≤ acc
    · -- one more iteration
      have hstore : ((⟨st, acc - st, p, lb, stg, rl, la⟩ :
            FixedTimestepStage).storeInfo w).timesteps
          = some ⟨some ⟨st, acc - st, p⟩, some lb⟩ := rfl
      have hpass := subStagePass_preserving (some lb) stg
        ⟨st, acc - st, p, lb, stg, rl, la⟩
        (FixedTimestepStage.storeInfo ⟨st, acc - st, p, lb, stg, rl, la⟩ w)
        hpres hstore
      have hmod : (acc - st) % st = acc % st :=
        (Nat.mod_eq_sub_mod hge).symm
      have hdiv : acc / st = (acc - st) / st + 1 :=
        Nat.div_eq_sub_div hstep hge
      have hfuel' : acc - st ≤ fuel := by omega
      have hnlt : ¬ acc < st := by omega
      obtain ⟨w', hw', hwlt, hwge⟩ := ih
        (subStagePass stg ⟨st, acc - st, p, lb, stg, rl, la⟩
          (FixedTimestepStage.storeInfo ⟨st, acc - st, p, lb, stg, rl, la⟩ w)).1
        (subStagePass stg ⟨st, acc - st, p, lb, stg, rl, la⟩
          (FixedTimestepStage.storeInfo ⟨st, acc - st, p, lb, stg, rl, la⟩ w)).2
        (n + 1)
        (by rw [hpass.1]; exact hstep)
        (by rw [hpass.1]; exact hfuel')
        (by rw [hpass.1]; exact hpres)
      rw [hpass.1] at hw' hwlt hwge
      dsimp only at hw' hwlt hwge
      rw [hmod] at hw' hwge
      rw [show n + 1 + (acc - st) / st = n + acc / st by rw [hdiv]; ring] at hw'
      refine ⟨w', ?_, fun hlt => absurd hlt hnlt, fun _ => ?_⟩
      · simp only [FixedTimestepStage.catchUp]
        rw [if_pos hge, hpass.1]
        exact hw'
      · by_cases hge1 : st ≤ acc - st
        · exact hwge hge1
        · have hsub : acc - st < st := by omega
          have hw'' := hwlt hsub
          rw [hw'', hpass.2, hstore]
          have heq : acc - st = acc % st := by
            rw [← hmod]
            exact (Nat.mod_eq_of_lt hsub).symm
          rw [heq]
    · have hlt : acc < st := by omega
      refine ⟨w, ?_, fun _ => rfl, fun hge' => absurd hge' hge⟩
      simp only [FixedTimestepStage.catchUp]
      rw [if_neg hge]
      rw [Nat.mod_eq_of_lt hlt, Nat.div_eq_of_lt hlt]
      simp

lemma run_spec (s : FixedTimestepStage) (w : FTWorld) (d fuel : Nat)
    (hstep : 0 < s.step) (hp : s.paused = false)
    (hreg : s.registryAgrees w)
    (hpres : ∀ f ∈ s.stages, preservesRegistry f)
    (hlock : s.lock_accum + 1 < s.rate_lock.1)
    (hfuel : s.accumulator + d ≤ fuel) :
    ∃ s' w',
      FixedTimestepStage.run fuel s { w with timeDelta := some d }
        = some (s', w', (s.accumulator + d) / s.step) ∧
      s'.step = s.step ∧ s'.paused = false ∧ s'.label = s.label ∧
      s'.stages = s.stages ∧ s'.rate_lock = s.rate_lock ∧
      s'.accumulator = (s.accumulator + d) % s.step ∧
      s'.lock_accum ≤ s.lock_accum + 1 ∧
      s'.registryAgrees w' := by
  obtain ⟨st, acc, p, lb, stg, rl, la⟩ := s
  obtain ⟨lockFrames, exitDev⟩ := rl
  dsimp only at hstep hp hpres hlock hfuel ⊢
  subst hp
  have hsync := syncFromRegistry_of_agrees
    ⟨st, acc, false, lb, stg, (lockFrames, exitDev), la⟩
    { w with timeDelta := some d } hreg
  have hskip := rateLockCheck_skip
    ⟨st, acc + d, false, lb, stg, (lockFrames, exitDev), la⟩
    (by dsimp only; omega)
  obtain ⟨w2, hcu, hw2lt, hw2ge⟩ := catchUp_spec fuel
    ⟨st, acc + d, false, lb, stg, (lockFrames, exitDev), la⟩
    { w with timeDelta := some d } 0 hstep (by dsimp only; omega) hpres
  dsimp only at hcu hw2lt hw2ge
  rw [Nat.zero_add] at hcu
  have hlf : la < lockFrames := by omega
  have hnlf : ¬ lockFrames ≤ la + 1 := by omega
  simp only [FixedTimestepStage.run, hsync, hskip, hcu]
  by_cases hn0 : (acc + d) / st = 0
  · -- no steps ran this tick
    have hlt : acc + d < st := (Nat.div_eq_zero_iff hstep).mp hn0
    have hw2 : w2 = { w with timeDelta := some d } := hw2lt hlt
    subst hw2
    rcases hwt : w.timesteps with _ | ⟨info, cur⟩
    · simp [hwt, hn0, FixedTimestepStage.storeInfo]
      refine ⟨_, _, ⟨rfl, rfl⟩, rfl, rfl, rfl, rfl, rfl, rfl, ?_, ?_⟩
      · dsimp only
        omega
      · simp [FixedTimestepStage.registryAgrees]
    · simp [hwt, hn0, FixedTimestepStage.storeInfo]
      refine ⟨_, _, ⟨rfl, rfl⟩, rfl, rfl, rfl, rfl, rfl, rfl, ?_, ?_⟩
      · dsimp only
        omega
      · simp [FixedTimestepStage.registryAgrees]
  · -- at least one step ran
    have hge : st ≤ acc + d := by
      rcases Nat.lt_or_ge (acc + d) st with h | h
      · exact absurd ((Nat.div_eq_zero_iff hstep).mpr h) hn0
      · exact h
    have hw2t := hw2ge hge
    by_cases hn1 : (acc + d) / st = 1
    · simp [hw2t, hn0, hn1, hlf, hnlf]
      refine ⟨_, _, ⟨rfl, rfl⟩, rfl, rfl, rfl, rfl, rfl, rfl, ?_, ?_⟩
      · dsimp only
        omega
      · simp [FixedTimestepStage.registryAgrees]
    · simp [hw2t, hn0, hn1]
      refine ⟨_, _, ⟨rfl, rfl⟩, rfl, rfl, rfl, rfl, rfl, rfl, ?_, ?_⟩
      · dsimp only
        omega
      · simp [FixedTimestepStage.registryAgrees]

lemma runTicks_spec :
    ∀ (deltas : List Nat) (s : FixedTimestepStage) (w : FTWorld),
      0 < s.step → s.paused = false → s.accumulator < s.step →
      s.registryAgrees w →
      (∀ f ∈ s.stages, preservesRegistry f) →
      s.lock_accum + deltas.length < s.rate_lock.1 →
      ∃ s' w' N,
        FixedTimestepStage.runTicks s w deltas = some (s', w', N) ∧
        s.accumulator + deltas.sum = N * s.step + s'.accumulator ∧
        s'.accumulator < s.step ∧ s'.step = s.step := by
  intro deltas
  induction deltas with
  | nil =>
    intro s w hstep hp hacc hreg hpres hlock
    exact ⟨s, w, 0, rfl, by simp, hacc, rfl⟩
  | cons d ds ih =>
    intro s w hstep hp hacc hreg hpres hlock
    simp only [List.length_cons] at hlock
    obtain ⟨s1, w1, hrun, hstep1, hp1, hlb1, hstg1, hrl1, hacc1, hla1, hreg1⟩ :=
      run_spec s w d (s.accumulator + d + 1) hstep hp hreg hpres
        (by omega) (by omega)
    obtain ⟨s2, w2, M, hrun2, heq2, hlt2, hstep2⟩ := ih s1 w1
      (by rw [hstep1]; exact hstep) hp1
      (by rw [hacc1, hstep1]; exact Nat.mod_lt _ hstep) hreg1
      (by rw [hstg1]; exact hpres)
      (by rw [hrl1]; omega)
    refine ⟨s2, w2, (s.accumulator + d) / s.step + M, ?_, ?_, ?_, ?_⟩
    · simp only [FixedTimestepStage.runTicks, hrun, hrun2]
    · calc s.accumulator + (d :: ds).sum
          = (s.accumulator + d) + ds.sum := by
            simp only [List.sum_cons]; ring
        _ = (s.step * ((s.accumulator + d) / s.step)
              + (s.accumulator + d) % s.step) + ds.sum := by
            rw [Nat.div_add_mod]
        _ = s.step * ((s.accumulator + d) / s.step)
              + (s1.accumulator + ds.sum) := by
            rw [← hacc1]; ring
        _ = s.step * ((s.accumulator + d) / s.step)
              + (M * s1.step + s2.accumulator) := by rw [heq2]
        _ = ((s.accumulator + d) / s.step + M) * s.step + s2.accumulator := by
            rw [hstep1]; ring
    · rw [← hstep1]; exact hlt2
    · rw [hstep2, hstep1]

/-- C2: for a fixed-timestep stage with step `s.step > 0` that is never
paused and never enters rate-locked mode, whose children do not mutate the
registry: over any sequence of ticks with deltas `deltas`, the total number
`N` of child-sub-stage passes satisfies
`accumulator₀ + Σ deltas = N * step + accumulator′` with
`0 ≤ accumulator′ < step` at the end, i.e. `N = ⌊(accumulator₀ + D) / step⌋`
with the fractional remainder retained in the accumulator. -/
theorem c2 (s : FixedTimestepStage) (w : FTWorld) (deltas : List Nat)
    (hstep : 0 < s.step) (hp : s.paused = false)
    (hacc : s.accumulator < s.step)
    (hreg : s.registryAgrees w)
    (hpres : ∀ f ∈ s.stages, preservesRegistry f)
    (hlock : s.lock_accum + deltas.length < s.rate_lock.1) :
    ∃ s' w' N,
      FixedTimestepStage.runTicks s w deltas = some (s', w', N) ∧
      s.accumulator + deltas.sum = N * s.step + s'.accumulator ∧
      s'.accumulator < s.step ∧
      N = (s.accumulator + deltas.sum) / s.step := by
  obtain ⟨s', w', N, hrun, heq, hlt, _⟩ :=
    runTicks_spec deltas s w hstep hp hacc hreg hpres hlock
  refine ⟨s', w', N, hrun, heq, hlt, ?_⟩
  symm
  calc (s.accumulator + deltas.sum) / s.step
      = (s'.accumulator + s.step * N) / s.step := by
        rw [show s.accumulator + deltas.sum = s'.accumulator + s.step * N from
          by rw [heq]; ring]
    _ = s'.accumulator / s.step + N := Nat.add_mul_div_left _ _ hstep
    _ = N := by rw [Nat.div_eq_of_lt hlt, Nat.zero_add]

/-- Witness for C2 at the concrete scenario from the specification: step
100 ms, six ticks of 40 ms each; the children run exactly 2 times and the
final accumulator is 40 ms (times here in milliseconds; the model is
unit-agnostic). -/
theorem c2_witness :
    ∃ s' w', FixedTimestepStage.runTicks
        ⟨100, 0, false, "ts", [], (1000000, 0), 0⟩ ⟨none, none⟩
        [40, 40, 40, 40, 40, 40] = some (s', w', 2) ∧
      s'.accumulator = 40 := by
  obtain ⟨s', w', N, hrun, heq, hlt, hN⟩ :=
    c2 ⟨100, 0, false, "ts", [], (1000000, 0), 0⟩ ⟨none, none⟩
      [40, 40, 40, 40, 40, 40] (by norm_num) rfl (by norm_num)
      (by simp [FixedTimestepStage.registryAgrees])
      (by intro f hf; simp at hf)
      (by norm_num)
    
  dsimp only at heq hlt hN
  norm_num at heq hlt hN
  subst hN
  exact ⟨s', w', hrun, by omega⟩

/-- C5: for a stage in locked mode (`lock_accum >= rate_lock.0`) at the
start of a tick, with the overstep ratio `r` computed on the post-delta
accumulator: if `|r - 1.5|` is at least `exit_deviation`, the rate-lock
check leaves locked mode by zeroing `lock_accum` (accumulator untouched);
otherwise the accumulator is forced to `step + step/2`, exactly one child
pass runs that tick, and the accumulator ends at `step/2`, with the stage
still locked (children assumed not to mutate the registry).  The `f32`
ratio test of the source is modelled with exact rationals. -/
theorem c5 (s : FixedTimestepStage) (w : FTWorld) (d fuel : Nat)
    (hstep : 0 < s.step) (hp : s.paused = false) (hreg : s.registryAgrees w)
    (hpres : ∀ f ∈ s.stages, preservesRegistry f)
    (hlocked : s.rate_lock.1 ≤ s.lock_accum)
    (hfuel : s.step + s.step / 2 ≤ fuel) :
    (s.rate_lock.2 ≤ |((s.accumulator + d : Nat) : ℚ) / (s.step : ℚ) - 3 / 2| →
      ({ s with accumulator := s.accumulator + d }
          : FixedTimestepStage).rateLockCheck
        = { s with accumulator := s.accumulator + d, lock_accum := 0 }) ∧
    (|((s.accumulator + d : Nat) : ℚ) / (s.step : ℚ) - 3 / 2| < s.rate_lock.2 →
      ∃ s' w',
        FixedTimestepStage.run fuel s { w with timeDelta := some d }
          = some (s', w', 1) ∧
        s'.accumulator = s.step / 2 ∧
        s.rate_lock.1 ≤ s'.lock_accum) := by
  obtain ⟨st, acc, p, lb, stg, rl, la⟩ := s
  obtain ⟨lockFrames, exitDev⟩ := rl
  dsimp only at hstep hp hpres hlocked hfuel ⊢
  subst hp
  constructor
  · intro hdev
    unfold FixedTimestepStage.rateLockCheck
    rw [if_pos hlocked, if_pos hdev]
  · intro hdev
    have hskip : FixedTimestepStage.rateLockCheck
        ⟨st, acc + d, false, lb, stg, (lockFrames, exitDev), la⟩
        = ⟨st, st + st / 2, false, lb, stg, (lockFrames, exitDev), la⟩ := by
      unfold FixedTimestepStage.rateLockCheck
      rw [if_pos hlocked, if_neg (not_le.mpr hdev)]
    have hsync := syncFromRegistry_of_agrees
      ⟨st, acc, false, lb, stg, (lockFrames, exitDev), la⟩
      { w with timeDelta := some d } hreg
    obtain ⟨w2, hcu, hw2lt, hw2ge⟩ := catchUp_spec fuel
      ⟨st, st + st / 2, false, lb, stg, (lockFrames, exitDev), la⟩
      { w with timeDelta := some d } 0 hstep (by dsimp only; omega) hpres
    have hm : (st + st / 2) % st = st / 2 := by
      rw [show st + st / 2 = st / 2 + st * 1 by ring,
        Nat.add_mul_mod_self_left]
      exact Nat.mod_eq_of_lt (by omega)
    have hq : (st + st / 2) / st = 1 := by
      rw [show st + st / 2 = st / 2 + st * 1 by ring,
        Nat.add_mul_div_left _ _ hstep, Nat.div_eq_of_lt (by omega)]
    dsimp only at hcu hw2lt hw2ge
    rw [hm, hq, Nat.zero_add] at hcu
    have hw2t := hw2ge (by omega)
    rw [hm] at hw2t
    have h1 : ¬ la < lockFrames := by omega
    simp only [FixedTimestepStage.run, hsync, hskip, hcu]
    simp [hw2t, h1, hlocked]

/-- Witness for C5 at a concrete input: step 100, locked stage
(`lock_accum = lock frames = 5`), delta 154 giving overstep ratio 1.54,
within the exit deviation 1/10, so exactly one step runs and the
accumulator ends at 50 = step/2. -/
theorem c5_witness :
    ∃ s' w',
      FixedTimestepStage.run 150 ⟨100, 0, false, "ts", [], (5, 1/10), 5⟩
        ⟨none, some 154⟩ = some (s', w', 1) ∧
      s'.accumulator = 50 ∧ (5 : Nat) ≤ s'.lock_accum := by
  obtain ⟨s', w', h1, h2, h3⟩ :=
    (c5 ⟨100, 0, false, "ts", [], (5, 1/10), 5⟩ ⟨none, none⟩ 154 150
      (by norm_num) rfl (by simp [FixedTimestepStage.registryAgrees])
      (by intro f hf; simp at hf) (by norm_num) (by norm_num)).2
      (by
        dsimp only
        have hval : ((0 + 154 : Nat) : ℚ) / ((100 : Nat) : ℚ) - 3 / 2
            = 1 / 25 := by
          norm_num
        rw [hval, abs_of_pos (by norm_num : (0 : ℚ) < 1 / 25)]
        norm_num)
  exact ⟨s', w', h1, h2, h3⟩

/-- C6 (violated by the code): after a tick in which zero steps were
executed, `FixedTimesteps::current` is `Some(label)`, not `None`: the
`n_steps == 0` re-publish (fixedtimestep.rs lines 341-343) calls
`store_fixedtimestepinfo`, which re-sets `current` after it was cleared.
Here: step 100, delta 40, empty registry beforehand; after `run` the
registry holds `current = some "ts"`. -/
theorem c6_zero_step_leaves_current :
    (FixedTimestepStage.run 1 ⟨100, 0, false, "ts", [], (1000000, 0), 0⟩
        ⟨none, some 40⟩).map (fun r => r.2.1.timesteps)
      = some (some ⟨some ⟨100, 40, false⟩, some "ts"⟩) := by
  rfl

/-- C10 counterexample: `FixedTimestepStage::new` accepts a zero step with
no validation (the call returns normally, it does not panic), contradicting
the claim that `new` rejects `step = 0`. -/
theorem c10_counterexample :
    exceptOk (FixedTimestepStage.new 0 "ts") = true := rfl

/-- C10 (amended): `set_rate_lock` panics (assert) exactly when
`n_frames = 0` or `exit_deviation <= 0`, at the call; `FixedTimestepStage::new`
performs no validation and accepts any step, including zero. -/
theorem c10_amended :
    (∀ (timestep : Nat) (label : String),
      exceptOk (FixedTimestepStage.new timestep label) = true) ∧
    (∀ (s : FixedTimestepStage) (n : Nat) (ed : ℚ),
      exceptOk (s.set_rate_lock n ed) = true ↔ 0 < n ∧ 0 < ed) := by
  constructor
  · intro _ _
    rfl
  · intro s n ed
    by_cases hed : 0 < ed
    · by_cases hn : 0 < n
      · simp [FixedTimestepStage.set_rate_lock, exceptOk, hed, hn]
      · simp [FixedTimestepStage.set_rate_lock, exceptOk, hed, hn]
    · simp [FixedTimestepStage.set_rate_lock, exceptOk, hed]

lemma runStage_transition_eq {T : Type} (st : StateTransitionStage T)
    (fuel : Nat) (w : StWorld T) (log : List (StEv T)) (A B : T)
    (hc : w.current = some A) (hn : w.next = some B) :
    st.runStage (fuel + 1) w log
      = st.runStage fuel
          (applyEnter st B
            { applyExit st A { w with next := none } with current := some B })
          (log ++ transitionBlock st A B) := by
  simp only [StateTransitionStage.runStage, readCurrentOrInit, hc]
  rw [hn]
  rcases hex : st.exit_stages A with _ | f <;>
    rcases hen : st.enter_stages B with _ | g <;>
      simp [applyExit, applyEnter, transitionBlock, hex, hen]

lemma runStage_next_none {T : Type} (st : StateTransitionStage T) :
    ∀ (fuel : Nat) (w : StWorld T) (log : List (StEv T)) (w' : StWorld T)
      (log' : List (StEv T)),
      st.runStage fuel w log = some (w', log') → w'.next = none := by
  intro fuel
  induction fuel with
  | zero =>
    intro w log w' log' h
    simp [StateTransitionStage.runStage] at h
  | succ fuel ih =>
    intro w log w' log' h
    simp only [StateTransitionStage.runStage] at h
    rcases hro : readCurrentOrInit st w log with ⟨c, w1, log1⟩
    rw [hro] at h
    dsimp only at h
    rcases hn : w1.next with _ | n
    · rw [hn] at h
      dsimp only at h
      simp only [Option.some.injEq, Prod.mk.injEq] at h
      rw [← h.1]
    · rw [hn] at h
      dsimp only at h
      exact ih _ _ _ _ h

lemma countSetCurrent_append {T : Type} (l1 l2 : List (StEv T)) :
    countSetCurrent (l1 ++ l2) = countSetCurrent l1 + countSetCurrent l2 := by
  simp [countSetCurrent, List.filter_append]

lemma readCurrentOrInit_count {T : Type} (st : StateTransitionStage T)
    (w : StWorld T) (log : List (StEv T)) :
    countSetCurrent (readCurrentOrInit st w log).2.2 = countSetCurrent log := by
  unfold readCurrentOrInit
  rcases hc : w.current with _ | c
  · rcases hen : st.enter_stages st.default with _ | g
    · dsimp only
    · dsimp only
      rcases hgc : (g { w with current := some st.default }).current with _ | c'
      · simp [hgc, countSetCurrent_append, countSetCurrent]
      · simp [hgc, countSetCurrent_append, countSetCurrent]
  · dsimp only

lemma readCurrentOrInit_next {T : Type} (st : StateTransitionStage T)
    (w : StWorld T) (log : List (StEv T))
    (hpres : ∀ t f, st.enter_stages t = some f →
      ∀ v : StWorld T, v.next = none → (f v).next = none)
    (hn : w.next = none) :
    (readCurrentOrInit st w log).2.1.next = none := by
  unfold readCurrentOrInit
  rcases hc : w.current with _ | c
  · rcases hen : st.enter_stages st.default with _ | g
    · dsimp only
      exact hn
    · dsimp only
      have hg : (g { w with current := some st.default }).next = none :=
        hpres st.default g hen _ hn
      rcases hgc : (g { w with current := some st.default }).current with _ | c'
      · simp only [hgc]
        exact hg
      · simp only [hgc]
        exact hg
  · dsimp only
    exact hn

lemma runStage_stable {T : Type} (st : StateTransitionStage T)
    (hpres : NextPreserving st) :
    ∀ (fuel : Nat) (w : StWorld T) (log : List (StEv T)) (w' : StWorld T)
      (log' : List (StEv T)),
      w.next = none →
      st.runStage fuel w log = some (w', log') →
      countSetCurrent log' = countSetCurrent log := by
  intro fuel
  cases fuel with
  | zero =>
    intro w log w' log' _ h
    simp [StateTransitionStage.runStage] at h
  | succ fuel =>
    intro w log w' log' hn h
    simp only [StateTransitionStage.runStage] at h
    have hnext := readCurrentOrInit_next st w log hpres.1 hn
    have hcount := readCurrentOrInit_count st w log
    rcases hro : readCurrentOrInit st w log with ⟨c, w1, log1⟩
    rw [hro] at h hnext hcount
    dsimp only at h hnext hcount
    rw [hnext] at h
    dsimp only at h
    simp only [Option.some.injEq, Prod.mk.injEq] at h
    rw [← h.2]
    exact hcount

lemma runStage_count {T : Type} (st : StateTransitionStage T)
    (hpres : NextPreserving st) :
    ∀ (fuel : Nat) (w : StWorld T) (log : List (StEv T)) (w' : StWorld T)
      (log' : List (StEv T)),
      st.runStage fuel w log = some (w', log') →
      countSetCurrent log' ≤ countSetCurrent log + 1 := by
  intro fuel
  cases fuel with
  | zero =>
    intro w log w' log' h
    simp [StateTransitionStage.runStage] at h
  | succ fuel =>
    intro w log w' log' h
    simp only [StateTransitionStage.runStage] at h
    have hcount := readCurrentOrInit_count st w log
    rcases hro : readCurrentOrInit st w log with ⟨c, w1, log1⟩
    rw [hro] at h hcount
    dsimp only at h hcount
    rcases hn : w1.next with _ | n
    · rw [hn] at h
      dsimp only at h
      simp only [Option.some.injEq, Prod.mk.injEq] at h
      rw [← h.2]
      omega
    · rw [hn] at h
      dsimp only at h
      rcases hex : st.exit_stages c with _ | f <;>
        rcases hen : st.enter_stages n with _ | g <;>
        rw [hex, hen] at h <;> dsimp only at h
      · have hstab := runStage_stable st hpres fuel _ _ _ _ rfl h
        rw [hstab, countSetCurrent_append, hcount]
        simp [countSetCurrent]
      · have hWn : (g { { w1 with next := none } with current := some n }).next
            = none := hpres.1 n g hen _ rfl
        have hstab := runStage_stable st hpres fuel _ _ _ _ hWn h
        rw [hstab, countSetCurrent_append, countSetCurrent_append, hcount]
        simp [countSetCurrent]
      · have hWn : ({ f { w1 with next := none } with current := some n }
            : StWorld T).next = none := hpres.2 c f hex _ rfl
        have hstab := runStage_stable st hpres fuel _ _ _ _ hWn h
        rw [hstab, countSetCurrent_append, countSetCurrent_append, hcount]
        simp [countSetCurrent]
      · have hWn : (g { f { w1 with next := none } with current := some n }).next
            = none := hpres.1 n g hen _ (hpres.2 c f hex _ rfl)
        have hstab := runStage_stable st hpres fuel _ _ _ _ hWn h
        rw [hstab, countSetCurrent_append, countSetCurrent_append,
          countSetCurrent_append, hcount]
        simp [countSetCurrent]

/-- C3: (i) for a pending transition `A → B`, one driver iteration runs the
exit sub-stage of `A` on the world with the pending `NextState` removed,
only then writes `CurrentState := B`, and only then runs the enter sub-stage
of `B`, emitting the events in exactly that order, and continues the loop;
(ii) a driver invocation that returns leaves no `NextState` pending (the
loop repeats until the chain of transitions is exhausted); (iii) when the
enter/exit sub-stages never write `NextState`, a single invocation performs
at most one transition. -/
theorem c3 {T : Type} (st : StateTransitionStage T) :
    (∀ (fuel : Nat) (w : StWorld T) (log : List (StEv T)) (A B : T),
      w.current = some A → w.next = some B →
      st.runStage (fuel + 1) w log
        = st.runStage fuel
            (applyEnter st B
              { applyExit st A { w with next := none } with current := some B })
            (log ++ transitionBlock st A B)) ∧
    (∀ (fuel : Nat) (w : StWorld T) (log : List (StEv T)) (w' : StWorld T)
      (log' : List (StEv T)),
      st.runStage fuel w log = some (w', log') → w'.next = none) ∧
    (NextPreserving st →
      ∀ (fuel : Nat) (w : StWorld T) (log : List (StEv T)) (w' : StWorld T)
        (log' : List (StEv T)),
      st.runStage fuel w log = some (w', log') →
      countSetCurrent log' ≤ countSetCurrent log + 1) := by
  refine ⟨?_, ?_, ?_⟩
  · intro fuel w log A B hc hn
    exact runStage_transition_eq st fuel w log A B hc hn
  · intro fuel w log w' log' h
    exact runStage_next_none st fuel w log w' log' h
  · intro hpres fuel w log w' log' h
    exact runStage_count st hpres fuel w log w' log' h

/-- Witness for C3 at a concrete input: state type `Nat`, initial 0, enter
sub-stage registered for 1 (the identity), transition 0 → 1 pending. -/
theorem c3_witness :
    (StateTransitionStage.runStage
        (⟨fun t => if t = 1 then some (fun v => v) else none,
          fun _ => none, 0⟩ : StateTransitionStage Nat) 2 ⟨some 0, some 1⟩ []
      = StateTransitionStage.runStage
          ⟨fun t => if t = 1 then some (fun v => v) else none,
            fun _ => none, 0⟩ 1
          (applyEnter
            ⟨fun t => if t = 1 then some (fun v => v) else none,
              fun _ => none, 0⟩ 1
            { applyExit
                ⟨fun t => if t = 1 then some (fun v => v) else none,
                  fun _ => none, 0⟩ 0
                { (⟨some 0, some 1⟩ : StWorld Nat) with next := none } with
              current := some 1 })
          ([] ++ transitionBlock
            ⟨fun t => if t = 1 then some (fun v => v) else none,
              fun _ => none, 0⟩ 0 1)) ∧
    ((⟨some 1, none⟩ : StWorld Nat).next = none) ∧
    countSetCurrent [StEv.setCurrent 1, StEv.enter (1 : Nat)]
      ≤ countSetCurrent ([] : List (StEv Nat)) + 1 := by
  refine ⟨(c3 _).1 1 _ _ 0 1 rfl rfl, ?_, ?_⟩
  · exact (c3 (⟨fun t => if t = 1 then some (fun v => v) else none,
      fun _ => none, 0⟩ : StateTransitionStage Nat)).2.1 2
      ⟨some 0, some 1⟩ [] ⟨some 1, none⟩ [StEv.setCurrent 1, StEv.enter 1] rfl
  · refine (c3 (⟨fun t => if t = 1 then some (fun v => v) else none,
      fun _ => none, 0⟩ : StateTransitionStage Nat)).2.2 ⟨?_, ?_⟩ 2
      ⟨some 0, some 1⟩ [] ⟨some 1, none⟩ [StEv.setCurrent 1, StEv.enter 1] rfl
    · intro t f hf v hv
      dsimp only at hf
      by_cases ht : t = 1
      · rw [if_pos ht] at hf
        simp only [Option.some.injEq] at hf
        rw [← hf]
        exact hv
      · rw [if_neg ht] at hf
        cases hf
    · intro t f hf v hv
      dsimp only at hf
      cases hf

/-- C7 counterexample: state type `Nat`, initial value 0 with a registered
enter sub-stage (the identity), no exit sub-stages.  First invocation: the
world starts with `CurrentState` absent and `NextState = 1`; the driver
seeds state 0 (running enter(0)) and then transitions to 1.  `CurrentState`
is then removed externally (the situation the claim's reinsertion clause
covers).  Second invocation: the driver runs the first-run protocol again —
enter(0) runs a second time (so not "exactly once across the driver's
lifetime"), and `CurrentState` is reinserted with 0, the configured initial
value, not the last-known value 1. -/
theorem c7_counterexample :
    (StateTransitionStage.runStage
        (⟨fun t => if t = 0 then some (fun v => v) else none,
          fun _ => none, 0⟩ : StateTransitionStage Nat) 3
        ⟨none, some 1⟩ []
      = some (⟨some 1, none⟩, [StEv.enter 0, StEv.setCurrent 1])) ∧
    (StateTransitionStage.runStage
        (⟨fun t => if t = 0 then some (fun v => v) else none,
          fun _ => none, 0⟩ : StateTransitionStage Nat) 2
        ⟨none, none⟩ [StEv.enter 0, StEv.setCurrent 1]
      = some (⟨some 0, none⟩,
          [StEv.enter 0, StEv.setCurrent 1, StEv.enter 0])) ∧
    ([StEv.enter 0, StEv.setCurrent 1,
        StEv.enter (0 : Nat)].count (StEv.enter 0) = 2) := by
  refine ⟨rfl, rfl, rfl⟩

/-- C7 (amended): whenever `CurrentState<T>` is found missing at the start
of a driver iteration, the full first-run protocol runs: `CurrentState` is
reinserted with the configured initial value `v0` (not the last-known
value), and the enter sub-stage of `v0` runs (again), before anything else
in that invocation; when `CurrentState` is present, the first-run protocol
does not run and no event is emitted by the read.  Hence enter(v0) runs on
the first invocation before any other enter/exit sub-stage, but it runs
again on every invocation that finds `CurrentState` missing (and on every
transition targeting `v0`): it is not limited to exactly once per driver
lifetime. -/
theorem c7_amended {T : Type} (st : StateTransitionStage T) :
    (∀ (fuel : Nat) (w : StWorld T) (log : List (StEv T)),
      w.current = none → w.next = none →
      (∀ f, st.enter_stages st.default = some f →
        ∀ v : StWorld T, (f v).current = v.current) →
      (∀ f, st.enter_stages st.default = some f →
        ∀ v : StWorld T, v.next = none → (f v).next = none) →
      ∃ w', st.runStage (fuel + 1) w log = some (w', log ++ initBlock st) ∧
        w'.current = some st.default) ∧
    (∀ (w : StWorld T) (log : List (StEv T)) (c : T),
      w.current = some c → readCurrentOrInit st w log = (c, w, log)) := by
  constructor
  · intro fuel w log hc hn hec hen
    simp only [StateTransitionStage.runStage, readCurrentOrInit, hc,
      initBlock]
    rcases he : st.enter_stages st.default with _ | g
    · dsimp only
      rw [show ({ w with current := some st.default } : StWorld T).next
          = none from hn]
      dsimp only
      refine ⟨{ current := some st.default, next := none }, ?_, rfl⟩
      rw [List.append_nil]
    · dsimp only
      have hgc := hec g he
      have hgn := hen g he
      rw [show (g { w with current := some st.default }).current
          = some st.default from by rw [hgc]]
      dsimp only
      rw [show (g { w with current := some st.default }).next = none from
        hgn _ hn]
      dsimp only
      refine ⟨{ g { w with current := some st.default } with next := none },
        rfl, ?_⟩
      show (g { w with current := some st.default }).current = some st.default
      rw [hgc]
  · intro w log c hc
    simp only [readCurrentOrInit, hc]

/-- Witness for C7 (amended) at a concrete input: initial 0 with identity
enter sub-stage; an invocation on a world with `CurrentState` missing seeds
0 and logs enter(0); a read on a world holding 5 changes nothing. -/
theorem c7_amended_witness :
    (∃ w', StateTransitionStage.runStage
        (⟨fun t => if t = 0 then some (fun v => v) else none,
          fun _ => none, 0⟩ : StateTransitionStage Nat) 2
        ⟨none, none⟩ []
      = some (w', [] ++ initBlock
          ⟨fun t => if t = 0 then some (fun v => v) else none,
            fun _ => none, 0⟩) ∧
      w'.current = some 0) ∧
    readCurrentOrInit
        (⟨fun t => if t = 0 then some (fun v => v) else none,
          fun _ => none, 0⟩ : StateTransitionStage Nat)
        ⟨some 5, none⟩ [] = (5, ⟨some 5, none⟩, []) := by
  refine ⟨(c7_amended _).1 1 ⟨none, none⟩ [] rfl rfl ?_ ?_,
    (c7_amended _).2 ⟨some 5, none⟩ [] 5 rfl⟩
  · intro f hf v
    simp at hf
    subst hf
    rfl
  · intro f hf v hv
    simp at hf
    subst hf
    exact hv

/-- C8: when `NextState<T>` holds the same value `a` as `CurrentState<T>`,
the driver still performs a full transition: the exit sub-stage of `a`
runs, then `CurrentState` is (re)written with `a`, then the enter sub-stage
of `a` runs, in that order, and `CurrentState` ends as `a` (the pending
check does not compare the two values). -/
theorem c8 {T : Type} (st : StateTransitionStage T) (w : StWorld T)
    (log : List (StEv T)) (fuel : Nat) (a : T)
    (f g : StWorld T → StWorld T)
    (hc : w.current = some a) (hn : w.next = some a)
    (hex : st.exit_stages a = some f) (hen : st.enter_stages a = some g)
    (hfn : ∀ v : StWorld T, v.next = none → (f v).next = none)
    (hgn : ∀ v : StWorld T, v.next = none → (g v).next = none)
    (hgc : ∀ v : StWorld T, (g v).current = v.current) :
    ∃ w', st.runStage (fuel + 2) w log
        = some (w', log ++ [StEv.exit a, StEv.setCurrent a, StEv.enter a]) ∧
      w'.current = some a := by
  have h1 := runStage_transition_eq st (fuel + 1) w log a a hc hn
  rw [h1]
  have hWn : (applyEnter st a
      { applyExit st a { w with next := none } with current := some a }).next
      = none := by
    unfold applyEnter applyExit
    rw [hen, hex]
    exact hgn _ (hfn _ rfl)
  have hWc : (applyEnter st a
      { applyExit st a { w with next := none } with current := some a }).current
      = some a := by
    unfold applyEnter applyExit
    rw [hen, hex, hgc]
  simp only [StateTransitionStage.runStage, readCurrentOrInit, hWc, hWn]
  refine ⟨⟨some a, none⟩, ?_, rfl⟩
  simp [transitionBlock, hex, hen]

/-- Witness for C8 at a concrete input: state type `Nat`, current 0 and
`NextState = 0`, identity exit and enter sub-stages registered for 0: both
run and the state ends as 0. -/
theorem c8_witness :
    ∃ w', StateTransitionStage.runStage
        (⟨fun t => if t = 0 then some (fun v => v) else none,
          fun t => if t = 0 then some (fun v => v) else none, 0⟩
          : StateTransitionStage Nat) 2 ⟨some 0, some 0⟩ []
      = some (w', [] ++ [StEv.exit 0, StEv.setCurrent 0, StEv.enter 0]) ∧
      w'.current = some 0 := by
  exact c8 ⟨fun t => if t = 0 then some (fun v => v) else none,
      fun t => if t = 0 then some (fun v => v) else none, 0⟩
    ⟨some 0, some 0⟩ [] 0 0 (fun v => v) (fun v => v) rfl rfl rfl rfl
    (fun v hv => hv) (fun v hv => hv) (fun v => rfl)

end Loopless
